import Mathlib

/-!
Verification development for the Gaussian-process regression notebook
(`gp-inference.ipynb`).  The numerical pipeline is embedded shallowly over
the real numbers: tensors become functions out of `Fin`, `torch.cholesky`
becomes an executable outer-product Cholesky recursion guarded by positive
definiteness, and `torch.trtrs` becomes forward/backward substitution.
-/

noncomputable section

open scoped BigOperators

/-- `cdist` squared distances before the square root, exactly as the source
computes them: `x1_norm + x2_norm - 2 * x1 @ x2.T`, clamped below by `1e-30`
(`res.clamp_min_(1e-30)`). Points are `d`-dimensional rows. -/
def cdistSq {n m d : ℕ} (x1 : Fin n → Fin d → ℝ) (x2 : Fin m → Fin d → ℝ) :
    Matrix (Fin n) (Fin m) ℝ :=
  Matrix.of fun i j =>
    max ((∑ k, x1 i k ^ 2) + (∑ k, x2 j k ^ 2) - 2 * ∑ k, x1 i k * x2 j k) 1e-30

/-- The pairwise Euclidean distance routine `cdist` of the source:
square root of the clamped squared-distance matrix (`.sqrt_()`). -/
def cdist {n m d : ℕ} (x1 : Fin n → Fin d → ℝ) (x2 : Fin m → Fin d → ℝ) :
    Matrix (Fin n) (Fin m) ℝ :=
  Matrix.of fun i j => Real.sqrt (cdistSq x1 x2 i j)

/-- The source `rbf_kernel`:
`K = variance * torch.exp(-cdist(x1, x2)**2 / (2 * lengthscale**2))`. -/
def rbf_kernel {n m d : ℕ} (x1 : Fin n → Fin d → ℝ) (x2 : Fin m → Fin d → ℝ)
    (lengthscale variance : ℝ) : Matrix (Fin n) (Fin m) ℝ :=
  Matrix.of fun i j => variance * Real.exp (-(cdist x1 x2 i j) ^ 2 / (2 * lengthscale ^ 2))

/-- The third entry of `params` in `gp_inference`: either a scalar noise
variance or a length-`n` per-point noise vector (both occur at call sites). -/
inductive NoiseSpec (n : ℕ)
  | scalar (σ : ℝ)
  | vector (v : Fin n → ℝ)

/-- The term `noise * torch.eye(N)` of the source, including the broadcasting
semantics when `noise` is a length-`N` vector: entry `(i, j)` is
`noise[j] * eye[i, j]`. -/
def noiseMatrix {n : ℕ} : NoiseSpec n → Matrix (Fin n) (Fin n) ℝ
  | NoiseSpec.scalar σ => Matrix.of fun i j => σ * (if i = j then 1 else 0)
  | NoiseSpec.vector v => Matrix.of fun i j => v j * (if i = j then 1 else 0)

/-- The unpacked `params` list `[lengthscale, variance, noise]` of
`gp_inference`. -/
structure GPParams (n : ℕ) where
  lengthscale : ℝ
  variance : ℝ
  noise : NoiseSpec n

/-- The noisy training covariance of the source:
`K_y = rbf_kernel(obs_x, obs_x, lengthscale, variance) + noise * torch.eye(N)`. -/
def trainKy {n d : ℕ} (obs_x : Fin n → Fin d → ℝ) (p : GPParams n) :
    Matrix (Fin n) (Fin n) ℝ :=
  rbf_kernel obs_x obs_x p.lengthscale p.variance + noiseMatrix p.noise

/-- The lower-triangular Cholesky factor, computed by the textbook
outer-product recursion (pivot `sqrt (A 0 0)`, scaled first column, recurse on
the Schur complement).  This is the factor `torch.cholesky` returns on a
positive-definite input. -/
def cholesky : {n : ℕ} → Matrix (Fin n) (Fin n) ℝ → Matrix (Fin n) (Fin n) ℝ
  | 0, _ => Matrix.of fun i _ => i.elim0
  | _ + 1, A =>
    Matrix.of
      (Fin.cons (Fin.cons (Real.sqrt (A 0 0)) fun _ => 0) fun i =>
        Fin.cons (A i.succ 0 / Real.sqrt (A 0 0))
          (cholesky
            (Matrix.of fun a b =>
              A a.succ b.succ -
                A a.succ 0 / Real.sqrt (A 0 0) * (A b.succ 0 / Real.sqrt (A 0 0)))
            i))

/-- Forward substitution: the solution of `L * z = b` for lower-triangular `L`,
modelling `torch.trtrs(b, L, upper=False)[0]`. -/
def trtrsLower : {n : ℕ} → Matrix (Fin n) (Fin n) ℝ → (Fin n → ℝ) → Fin n → ℝ
  | 0, _, _ => fun i => i.elim0
  | _ + 1, L, b =>
    Fin.cons (b 0 / L 0 0)
      (trtrsLower (Matrix.of fun i j => L i.succ j.succ)
        (fun i => b i.succ - L i.succ 0 * (b 0 / L 0 0)))

/-- Backward substitution: the solution of `U * z = b` for upper-triangular `U`,
modelling `torch.trtrs(b, U, upper=True)[0]`. -/
def trtrsUpper : {n : ℕ} → Matrix (Fin n) (Fin n) ℝ → (Fin n → ℝ) → Fin n → ℝ
  | 0, _, _ => fun i => i.elim0
  | n + 1, U, b =>
    Fin.snoc
      (trtrsUpper (Matrix.of fun i j => U i.castSucc j.castSucc)
        (fun i =>
          b i.castSucc -
            U i.castSucc (Fin.last n) * (b (Fin.last n) / U (Fin.last n) (Fin.last n))))
      (b (Fin.last n) / U (Fin.last n) (Fin.last n))

/-- Triangular solve with a matrix right-hand side: column-by-column forward
substitution, as `torch.trtrs` behaves on a matrix `b`. -/
def trtrsLowerMat {n m : ℕ} (L : Matrix (Fin n) (Fin n) ℝ)
    (B : Matrix (Fin n) (Fin m) ℝ) : Matrix (Fin n) (Fin m) ℝ :=
  Matrix.of fun i j => trtrsLower L (fun k => B k j) i

/-- Triangular solve with a matrix right-hand side: column-by-column backward
substitution. -/
def trtrsUpperMat {n m : ℕ} (U : Matrix (Fin n) (Fin n) ℝ)
    (B : Matrix (Fin n) (Fin m) ℝ) : Matrix (Fin n) (Fin m) ℝ :=
  Matrix.of fun i j => trtrsUpper U (fun k => B k j) i

/-- Modelled from the spec: the source line `K_chol = torch.cholesky(K_y)`
raises a library exception when `K_y` is not positive definite, and the repo
contains no error class of its own; the spec names this failure
`NumericalInstabilityError`, carrying which matrix failed and the violated
condition. -/
inductive MatrixName
  | K_y

/-- Modelled from the spec: the condition whose violation made the Cholesky
factorization fail. -/
inductive FailCondition
  | notPositiveDefinite

/-- Modelled from the spec: the error taxonomy surfaced by the inference
routine.  The only failure the source can raise is the Cholesky one. -/
inductive GPError
  | NumericalInstabilityError (matrix : MatrixName) (condition : FailCondition)

open Classical in
/-- The `torch.cholesky` call of the source: returns the lower factor on a
positive-definite input and raises (here: returns an error naming the matrix
and the condition) otherwise. -/
def choleskyChecked {n : ℕ} (A : Matrix (Fin n) (Fin n) ℝ) :
    Except GPError (Matrix (Fin n) (Fin n) ℝ) :=
  if A.PosDef then Except.ok (cholesky A) else
    Except.error (GPError.NumericalInstabilityError MatrixName.K_y
      FailCondition.notPositiveDefinite)

/-- The success path of `gp_inference`, given the Cholesky factor `K_chol` of
`K_y`: mirrors the source line by line (target offset by the prior mean, the
two triangular solves for `alpha`, cross and test covariances, posterior mean
with the prior mean re-added, posterior covariance, and the log marginal
likelihood, whose forward solve the source spells out again). -/
def gpResult {d N M : ℕ} (obs_x : Fin N → Fin d → ℝ) (obs_t : Fin N → ℝ)
    (x_new : Fin M → Fin d → ℝ) (p : GPParams N) (prior_mean : ℝ)
    (K_chol : Matrix (Fin N) (Fin N) ℝ) :
    (Fin M → ℝ) × Matrix (Fin M) (Fin M) ℝ × ℝ :=
  let t : Fin N → ℝ := fun i => obs_t i - prior_mean
  let alpha : Fin N → ℝ := trtrsUpper K_chol.transpose (trtrsLower K_chol t)
  let K_obs_pred := rbf_kernel obs_x x_new p.lengthscale p.variance
  let K_pred := rbf_kernel x_new x_new p.lengthscale p.variance
  let posterior_m : Fin M → ℝ := fun j => ∑ i, K_obs_pred i j * alpha i
  let v := trtrsUpperMat K_chol.transpose (trtrsLowerMat K_chol K_obs_pred)
  let posterior_v : Matrix (Fin M) (Fin M) ℝ :=
    Matrix.of fun i j => K_pred i j - ∑ k, K_obs_pred k i * v k j
  let log_lik : ℝ :=
    -(1 / 2) * ((∑ i, Real.log |K_chol i i|) + ∑ i, trtrsLower K_chol t i ^ 2) -
      (N : ℝ) / 2 * Real.log (2 * Real.pi)
  (fun j => posterior_m j + prior_mean, posterior_v, log_lik)

/-- The source `gp_inference(obs_x, obs_t, x_new, params, prior_mean=0)`:
build `K_y`, factor it (raising on a non-positive-definite `K_y`), then run
the success path.  The source defaults `prior_mean` to `0`; here it is always
passed explicitly. -/
def gp_inference {d N M : ℕ} (obs_x : Fin N → Fin d → ℝ) (obs_t : Fin N → ℝ)
    (x_new : Fin M → Fin d → ℝ) (p : GPParams N) (prior_mean : ℝ) :
    Except GPError ((Fin M → ℝ) × Matrix (Fin M) (Fin M) ℝ × ℝ) :=
  Except.map (gpResult obs_x obs_t x_new p prior_mean) (choleskyChecked (trainKy obs_x p))

/-- The objective of the training loop: the negative of the log marginal
likelihood that `gp_inference` reports for the parameters
`[logl.exp(), logsigmaf.exp(), logsigman.exp()]`, a zero prior mean and the
single dummy test point the loop passes.  The loop reads only the third
component of the returned triple. -/
def trainNll {d N : ℕ} (obs_x : Fin N → Fin d → ℝ) (obs_t : Fin N → ℝ)
    (x_single : Fin 1 → Fin d → ℝ) (θ : ℝ × ℝ × ℝ) : ℝ :=
  -(gpResult obs_x obs_t x_single
      ⟨Real.exp θ.1, Real.exp θ.2.1, NoiseSpec.scalar (Real.exp θ.2.2)⟩ 0
      (cholesky
        (trainKy obs_x
          ⟨Real.exp θ.1, Real.exp θ.2.1, NoiseSpec.scalar (Real.exp θ.2.2)⟩))).2.2

/-- One iteration of the training loop over an optimizer state `s` paired with
the trace list: evaluate the objective at the current state, apply the
optimizer update (`optimizer.step()`, whose gradient and momentum arithmetic
is the parameter `upd`), and append the evaluated objective to the trace. -/
def optimStep {σ : Type} (nll : σ → ℝ) (upd : σ → σ) (s : σ × List ℝ) : σ × List ℝ :=
  (upd s.1, s.2 ++ [nll s.1])

/-- The training loop `for i in range(S)` of the source, started from an empty
trace (`nlog_lik_steps = []`): a fixed iteration count with no early stop. -/
def optimRun {σ : Type} (nll : σ → ℝ) (upd : σ → σ) (init : σ) : ℕ → σ × List ℝ
  | 0 => (init, [])
  | n + 1 => optimStep nll upd (optimRun nll upd init n)

/-- The Dirichlet label transform of the source, elementwise on the one-hot
label matrix: `obs_t_transf_var = torch.log((obs_t + alpha) ** (-1) + 1)`. -/
def dirichletTransfVar {N C : ℕ} (Y : Fin N → Fin C → ℝ) (a : ℝ) :
    Fin N → Fin C → ℝ :=
  fun i c => Real.log ((Y i c + a)⁻¹ + 1)

/-- The Dirichlet label transform of the source, elementwise:
`obs_t_transf_mean = torch.log(obs_t + alpha) - obs_t_transf_var / 2`. -/
def dirichletTransfMean {N C : ℕ} (Y : Fin N → Fin C → ℝ) (a : ℝ) :
    Fin N → Fin C → ℝ :=
  fun i c => Real.log (Y i c + a) - dirichletTransfVar Y a i c / 2

/-- The per-class inference call of the source:
`gp_inference(obs_x, obs_t_transf_mean[:, c], test_x, params + [obs_t_transf_var[:, c]], prior_mean)`,
the transformed mean column as targets and the transformed variance column as
the per-point noise vector. -/
def dirichletClassCall {d N C M : ℕ} (obs_x : Fin N → Fin d → ℝ)
    (Y : Fin N → Fin C → ℝ) (a : ℝ) (x_new : Fin M → Fin d → ℝ)
    (l v : ℝ) (c : Fin C) (prior_mean : ℝ) :
    Except GPError ((Fin M → ℝ) × Matrix (Fin M) (Fin M) ℝ × ℝ) :=
  gp_inference obs_x (fun i => dirichletTransfMean Y a i c) x_new
    ⟨l, v, NoiseSpec.vector (fun i => dirichletTransfVar Y a i c)⟩ prior_mean

/-- A hyperparameter configuration in which at least one of lengthscale,
variance or noise is nonpositive (passed directly, not via the log
transform). -/
def hasNonpositiveHyper {n : ℕ} (p : GPParams n) : Prop :=
  p.lengthscale ≤ 0 ∨ p.variance ≤ 0 ∨
    (match p.noise with
     | NoiseSpec.scalar σ => σ ≤ 0
     | NoiseSpec.vector v => ∃ i, v i ≤ 0)

/-- A one-observation, one-dimensional point set at the origin, used as a
concrete input in witnesses. -/
def xOne : Fin 1 → Fin 1 → ℝ := fun _ _ => 0

/-- A one-observation target vector with value `1`, used as a concrete input
in witnesses. -/
def tOne : Fin 1 → ℝ := fun _ => 1

end

theorem rbf_kernel_diag_self {n d : ℕ} (x : Fin n → Fin d → ℝ) (l v : ℝ) (i : Fin n) :
    rbf_kernel x x l v i i = v * Real.exp (-(1e-30) / (2 * l ^ 2)) := by
  have hsum : ∑ k, x i k * x i k = ∑ k, x i k ^ 2 :=
    Finset.sum_congr rfl fun k _ => by ring
  have hz : cdistSq x x i i = 1e-30 := by
    show max ((∑ k, x i k ^ 2) + (∑ k, x i k ^ 2) - 2 * ∑ k, x i k * x i k) 1e-30 = 1e-30
    rw [hsum]
    have hzero : (∑ k, x i k ^ 2) + (∑ k, x i k ^ 2) - 2 * ∑ k, x i k ^ 2 = 0 := by ring
    rw [hzero]
    exact max_eq_right (by norm_num)
  show v * Real.exp (-(Real.sqrt (cdistSq x x i i)) ^ 2 / (2 * l ^ 2)) = _
  rw [hz, Real.sq_sqrt (by norm_num : (0 : ℝ) ≤ 1e-30)]

theorem trainKy_diag_scalar {n d : ℕ} (x : Fin n → Fin d → ℝ) (l v σ : ℝ) (i : Fin n) :
    trainKy x ⟨l, v, NoiseSpec.scalar σ⟩ i i = v * Real.exp (-(1e-30) / (2 * l ^ 2)) + σ := by
  calc trainKy x ⟨l, v, NoiseSpec.scalar σ⟩ i i
      = rbf_kernel x x l v i i + noiseMatrix (NoiseSpec.scalar σ) i i :=
        Matrix.add_apply (rbf_kernel x x l v) (noiseMatrix (NoiseSpec.scalar σ)) i i
    _ = v * Real.exp (-(1e-30) / (2 * l ^ 2)) + σ := by
        rw [rbf_kernel_diag_self]
        simp [noiseMatrix]

theorem gpResult_logLik {d N M : ℕ} (obs_x : Fin N → Fin d → ℝ) (obs_t : Fin N → ℝ)
    (x_new : Fin M → Fin d → ℝ) (p : GPParams N) (m0 : ℝ)
    (L : Matrix (Fin N) (Fin N) ℝ) :
    (gpResult obs_x obs_t x_new p m0 L).2.2 =
      -(1 / 2) * ((∑ i, Real.log |L i i|) +
        ∑ i, trtrsLower L (fun i => obs_t i - m0) i ^ 2) -
      (N : ℝ) / 2 * Real.log (2 * Real.pi) := rfl

theorem gpResult_mean {d N M : ℕ} (obs_x : Fin N → Fin d → ℝ) (obs_t : Fin N → ℝ)
    (x_new : Fin M → Fin d → ℝ) (p : GPParams N) (m0 : ℝ)
    (L : Matrix (Fin N) (Fin N) ℝ) :
    (gpResult obs_x obs_t x_new p m0 L).1 = fun j =>
      (∑ i, rbf_kernel obs_x x_new p.lengthscale p.variance i j *
        trtrsUpper L.transpose (trtrsLower L (fun i => obs_t i - m0)) i) + m0 := rfl

theorem cholesky_lower_triangular :
    ∀ {n : ℕ} (A : Matrix (Fin n) (Fin n) ℝ) (i j : Fin n),
      (i : ℕ) < (j : ℕ) → cholesky A i j = 0 := by
  intro n
  induction n with
  | zero => intro A i j _; exact i.elim0
  | succ n ih =>
    intro A i j hij
    rcases Fin.eq_zero_or_eq_succ i with hi | ⟨i', rfl⟩
    · subst hi
      rcases Fin.eq_zero_or_eq_succ j with hj | ⟨j', rfl⟩
      · subst hj; exact absurd hij (by simp)
      · show Matrix.of _ 0 j'.succ = 0
        simp [Matrix.of_apply, Fin.cons_zero, Fin.cons_succ]
    · rcases Fin.eq_zero_or_eq_succ j with hj | ⟨j', rfl⟩
      · subst hj; exact absurd hij (by simp)
      · show Matrix.of _ i'.succ j'.succ = 0
        have h' : (i' : ℕ) < (j' : ℕ) := by
          simpa [Fin.val_succ] using hij
        simp only [Matrix.of_apply, Fin.cons_succ]
        exact ih _ i' j' h'

theorem trtrsLower_solves :
    ∀ {n : ℕ} (L : Matrix (Fin n) (Fin n) ℝ) (b : Fin n → ℝ),
      (∀ i j : Fin n, (i : ℕ) < (j : ℕ) → L i j = 0) → (∀ i, L i i ≠ 0) →
      L.mulVec (trtrsLower L b) = b := by
  intro n
  induction n with
  | zero => intro L b _ _; funext i; exact i.elim0
  | succ n ih =>
    intro L b hlt hd
    funext i
    have hmv : L.mulVec (trtrsLower L b) i = ∑ j, L i j * trtrsLower L b j := by
      simp [Matrix.mulVec, Matrix.dotProduct]
    have hcons0 : trtrsLower L b 0 = b 0 / L 0 0 := rfl
    have hconsS : ∀ j : Fin n, trtrsLower L b j.succ =
        trtrsLower (Matrix.of fun a c => L a.succ c.succ)
          (fun a => b a.succ - L a.succ 0 * (b 0 / L 0 0)) j := fun j => rfl
    rcases Fin.eq_zero_or_eq_succ i with hi | ⟨i', rfl⟩
    · subst hi
      rw [hmv, Fin.sum_univ_succ, hcons0]
      have hzero : ∀ j : Fin n, L 0 j.succ * trtrsLower L b j.succ = 0 := by
        intro j
        rw [hlt 0 j.succ (by simp), zero_mul]
      rw [Finset.sum_congr rfl fun j _ => hzero j]
      have : L 0 0 * (b 0 / L 0 0) = b 0 := by
        field_simp [hd 0]
      simpa using this
    · have hlt' : ∀ a c : Fin n, (a : ℕ) < (c : ℕ) →
          (Matrix.of fun a c => L a.succ c.succ) a c = 0 := by
        intro a c hac
        exact hlt a.succ c.succ (by simpa [Fin.val_succ] using hac)
      have hd' : ∀ a : Fin n, (Matrix.of fun a c => L a.succ c.succ) a a ≠ 0 :=
        fun a => hd a.succ
      have hih := congrFun
        (ih (Matrix.of fun a c => L a.succ c.succ)
          (fun a => b a.succ - L a.succ 0 * (b 0 / L 0 0)) hlt' hd') i'
      have hihsum :
          (∑ j, L i'.succ j.succ *
            trtrsLower (Matrix.of fun a c => L a.succ c.succ)
              (fun a => b a.succ - L a.succ 0 * (b 0 / L 0 0)) j) =
            b i'.succ - L i'.succ 0 * (b 0 / L 0 0) := by

        have : (Matrix.of fun a c => L a.succ c.succ).mulVec
            (trtrsLower (Matrix.of fun a c => L a.succ c.succ)
              (fun a => b a.succ - L a.succ 0 * (b 0 / L 0 0))) i' =
            ∑ j, L i'.succ j.succ *
              trtrsLower (Matrix.of fun a c => L a.succ c.succ)
                (fun a => b a.succ - L a.succ 0 * (b 0 / L 0 0)) j := by
          simp [Matrix.mulVec, Matrix.dotProduct]
        rw [← this, hih]
      rw [hmv, Fin.sum_univ_succ, hcons0]
      rw [Finset.sum_congr rfl fun j _ => by rw [hconsS j]]
      rw [hihsum]
      ring

theorem trtrsUpper_solves :
    ∀ {n : ℕ} (U : Matrix (Fin n) (Fin n) ℝ) (b : Fin n → ℝ),
      (∀ i j : Fin n, (j : ℕ) < (i : ℕ) → U i j = 0) → (∀ i, U i i ≠ 0) →
      U.mulVec (trtrsUpper U b) = b := by
  intro n
  induction n with
  | zero => intro U b _ _; funext i; exact i.elim0
  | succ n ih =>
    intro U b hut hd
    funext i
    have hmv : U.mulVec (trtrsUpper U b) i = ∑ j, U i j * trtrsUpper U b j := by
      simp [Matrix.mulVec, Matrix.dotProduct]
    have hlastval : trtrsUpper U b (Fin.last n) =
        b (Fin.last n) / U (Fin.last n) (Fin.last n) := by
      show Fin.snoc _ _ (Fin.last n) = _
      rw [Fin.snoc_last]
    have hcastval : ∀ j : Fin n, trtrsUpper U b j.castSucc =
        trtrsUpper (Matrix.of fun a c => U a.castSucc c.castSucc)
          (fun a => b a.castSucc -
            U a.castSucc (Fin.last n) *
              (b (Fin.last n) / U (Fin.last n) (Fin.last n))) j := by
      intro j
      show Fin.snoc _ _ j.castSucc = _
      rw [Fin.snoc_castSucc]
    rcases Fin.eq_castSucc_or_eq_last i with ⟨i', rfl⟩ | hi
    · have hut' : ∀ a c : Fin n, (c : ℕ) < (a : ℕ) →
          (Matrix.of fun a c => U a.castSucc c.castSucc) a c = 0 := by
        intro a c hac
        exact hut a.castSucc c.castSucc (by simpa using hac)
      have hd' : ∀ a : Fin n,
          (Matrix.of fun a c => U a.castSucc c.castSucc) a a ≠ 0 :=
        fun a => hd a.castSucc
      have hih := congrFun
        (ih (Matrix.of fun a c => U a.castSucc c.castSucc)
          (fun a => b a.castSucc -
            U a.castSucc (Fin.last n) *
              (b (Fin.last n) / U (Fin.last n) (Fin.last n))) hut' hd') i'
      have hihsum :
          (∑ j, U i'.castSucc j.castSucc *
            trtrsUpper (Matrix.of fun a c => U a.castSucc c.castSucc)
              (fun a => b a.castSucc -
                U a.castSucc (Fin.last n) *
                  (b (Fin.last n) / U (Fin.last n) (Fin.last n))) j) =
            b i'.castSucc -
              U i'.castSucc (Fin.last n) *
                (b (Fin.last n) / U (Fin.last n) (Fin.last n)) := by
        have hmv' : (Matrix.of fun a c => U a.castSucc c.castSucc).mulVec
            (trtrsUpper (Matrix.of fun a c => U a.castSucc c.castSucc)
              (fun a => b a.castSucc -
                U a.castSucc (Fin.last n) *
                  (b (Fin.last n) / U (Fin.last n) (Fin.last n)))) i' =
            ∑ j, U i'.castSucc j.castSucc *
              trtrsUpper (Matrix.of fun a c => U a.castSucc c.castSucc)
                (fun a => b a.castSucc -
                  U a.castSucc (Fin.last n) *
                    (b (Fin.last n) / U (Fin.last n) (Fin.last n))) j := by
          simp [Matrix.mulVec, Matrix.dotProduct]
        rw [← hmv', hih]
      rw [hmv, Fin.sum_univ_castSucc]
      rw [Finset.sum_congr rfl fun j _ => by rw [hcastval j]]
      rw [hihsum, hlastval]
      ring
    · subst hi
      rw [hmv, Fin.sum_univ_castSucc, hlastval]
      have hzero : ∀ j : Fin n,
          U (Fin.last n) j.castSucc * trtrsUpper U b j.castSucc = 0 := by
        intro j
        rw [hut (Fin.last n) j.castSucc (by simp [j.isLt]), zero_mul]
      rw [Finset.sum_congr rfl fun j _ => hzero j]
      have hcancel : U (Fin.last n) (Fin.last n) *
          (b (Fin.last n) / U (Fin.last n) (Fin.last n)) = b (Fin.last n) := by
        field_simp [hd (Fin.last n)]
      simpa using hcancel

theorem posDef_fin_one {M : Matrix (Fin 1) (Fin 1) ℝ} (h : 0 < M 0 0) : M.PosDef := by
  constructor
  · ext i j
    fin_cases i
    fin_cases j
    simp [Matrix.conjTranspose_apply]
  · intro x hx
    have hx0 : x 0 ≠ 0 := by
      intro h0
      exact hx (funext fun i => by fin_cases i; exact h0)
    have hform : Matrix.dotProduct (star x) (M.mulVec x) = M 0 0 * (x 0 * x 0) := by
      simp [Matrix.dotProduct, Matrix.mulVec, Fin.sum_univ_one]
      ring
    rw [hform]
    exact mul_pos h (mul_self_pos.mpr hx0)

theorem posDef_fin_one_pos {M : Matrix (Fin 1) (Fin 1) ℝ} (h : M.PosDef) : 0 < M 0 0 := by
  have hx : (fun _ : Fin 1 => (1 : ℝ)) ≠ 0 := by
    intro h0
    have := congrFun h0 0
    norm_num at this
  have := h.2 (fun _ => 1) hx
  have hform : Matrix.dotProduct (star fun _ : Fin 1 => (1 : ℝ)) (M.mulVec fun _ => 1) =
      M 0 0 := by
    simp [Matrix.dotProduct, Matrix.mulVec, Fin.sum_univ_one]
  rwa [hform] at this

theorem gp_inference_eq_ok {d N M : ℕ} (obs_x : Fin N → Fin d → ℝ) (obs_t : Fin N → ℝ)
    (x_new : Fin M → Fin d → ℝ) (p : GPParams N) (prior_mean : ℝ)
    (hPD : (trainKy obs_x p).PosDef) :
    gp_inference obs_x obs_t x_new p prior_mean =
      Except.ok (gpResult obs_x obs_t x_new p prior_mean (cholesky (trainKy obs_x p))) := by
  unfold gp_inference choleskyChecked
  rw [if_pos hPD]
  rfl

theorem optimRun_fst {σ : Type} (nll : σ → ℝ) (upd : σ → σ) (init : σ) (n : ℕ) :
    (optimRun nll upd init n).1 = upd^[n] init := by
  induction n with
  | zero => rfl
  | succ n ih =>
    show upd (optimRun nll upd init n).1 = upd^[n + 1] init
    rw [ih, Function.iterate_succ_apply']

theorem optimRun_trace_succ {σ : Type} (nll : σ → ℝ) (upd : σ → σ) (init : σ) (n : ℕ) :
    (optimRun nll upd init (n + 1)).2 =
      (optimRun nll upd init n).2 ++ [nll (upd^[n] init)] := by
  show (optimRun nll upd init n).2 ++ [nll (optimRun nll upd init n).1] = _
  rw [optimRun_fst]

theorem optimRun_trace_length {σ : Type} (nll : σ → ℝ) (upd : σ → σ) (init : σ) (n : ℕ) :
    (optimRun nll upd init n).2.length = n := by
  induction n with
  | zero => rfl
  | succ n ih =>
    rw [optimRun_trace_succ]
    simp [ih]

theorem optimRun_trace_get {σ : Type} (nll : σ → ℝ) (upd : σ → σ) (init : σ)
    (n i : ℕ) (h : i < n) :
    (optimRun nll upd init n).2[i]? = some (nll (upd^[i] init)) := by
  induction n with
  | zero => exact absurd h (Nat.not_lt_zero i)
  | succ n ih =>
    rw [optimRun_trace_succ]
    rcases Nat.lt_succ_iff_lt_or_eq.mp h with h' | h'
    · rw [List.getElem?_append_left (by rw [optimRun_trace_length]; exact h')]
      exact ih h'
    · subst h'
      have hc := List.getElem?_concat_length (optimRun nll upd init i).2 (nll (upd^[i] init))
      rwa [optimRun_trace_length] at hc

/-- C10: every entry of the matrix returned by the pairwise-distance routine
`cdist` is at least `sqrt 1e-30`: the squared-distance expression is clamped
to the floor `1e-30` before the square root, so the square root is applied to
a positive argument, and the computed distance between a point and itself is
strictly positive, never `0`. -/
theorem cdist_clamped_below {n m d : ℕ} (x1 : Fin n → Fin d → ℝ)
    (x2 : Fin m → Fin d → ℝ) :
    (∀ i j, (1e-30 : ℝ) ≤ cdistSq x1 x2 i j) ∧
    (∀ i j, Real.sqrt 1e-30 ≤ cdist x1 x2 i j) ∧
    (∀ i : Fin n, 0 < cdist x1 x1 i i) := by
  refine ⟨fun i j => le_max_right _ _,
    fun i j => Real.sqrt_le_sqrt (le_max_right _ _), fun i => ?_⟩
  exact Real.sqrt_pos.mpr (lt_of_lt_of_le (by norm_num) (le_max_right _ 1e-30))

/-- C3: for point sets `x1`, `x2` and positive lengthscale and variance,
`rbf_kernel` returns the matrix whose `(i, j)` entry is
`variance * exp(-dist(x1 i, x2 j)^2 / (2 * lengthscale^2))`, `dist` being the
Euclidean distance the pairwise-distance routine `cdist` computes. -/
theorem rbf_kernel_entry_formula {n m d : ℕ} (x1 : Fin n → Fin d → ℝ)
    (x2 : Fin m → Fin d → ℝ) (lengthscale variance : ℝ)
    (_hl : 0 < lengthscale) (_hv : 0 < variance) (i : Fin n) (j : Fin m) :
    rbf_kernel x1 x2 lengthscale variance i j =
      variance * Real.exp (-(cdist x1 x2 i j) ^ 2 / (2 * lengthscale ^ 2)) := rfl

theorem rbf_kernel_entry_formula_witness :
    ((0 : ℝ) < 1 ∧ (0 : ℝ) < 1) ∧
    rbf_kernel xOne xOne 1 1 0 0 =
      1 * Real.exp (-(cdist xOne xOne 0 0) ^ 2 / (2 * 1 ^ 2)) :=
  ⟨⟨by norm_num, by norm_num⟩,
    rbf_kernel_entry_formula xOne xOne 1 1 (by norm_num) (by norm_num) 0 0⟩

/-- C2: the noisy training covariance is formed as `K + noise * eye(N)`, and
the noise slot accepts either a scalar or a length-`N` vector: a scalar is
added to every diagonal entry, the `i`-th vector entry to the `i`-th diagonal
entry, and off-diagonal entries are unchanged; `trainKy` is exactly this sum
as used by `gp_inference`. -/
theorem noisy_covariance_formation {N : ℕ} (K : Matrix (Fin N) (Fin N) ℝ)
    (σ : ℝ) (w : Fin N → ℝ) (i j : Fin N) :
    ((K + noiseMatrix (NoiseSpec.scalar σ) : Matrix (Fin N) (Fin N) ℝ) i j =
      K i j + (if i = j then σ else 0)) ∧
    ((K + noiseMatrix (NoiseSpec.vector w) : Matrix (Fin N) (Fin N) ℝ) i j =
      K i j + (if i = j then w i else 0)) ∧
    (∀ {d : ℕ} (obs_x : Fin N → Fin d → ℝ) (p : GPParams N),
      trainKy obs_x p = rbf_kernel obs_x obs_x p.lengthscale p.variance + noiseMatrix p.noise) := by
  refine ⟨?_, ?_, fun obs_x p => rfl⟩ <;> by_cases h : i = j <;>
    simp [noiseMatrix, Matrix.add_apply, h]

/-- C8: the Dirichlet label adapter computes, elementwise and per class,
`transformedVariance = log((Y + a)⁻¹ + 1)` and
`transformedMean = log(Y + a) - transformedVariance / 2`, and these become
respectively the targets and the per-point noise vector passed to
`gp_inference` once per class. -/
theorem dirichlet_transform_formulas {N C : ℕ} (Y : Fin N → Fin C → ℝ) (a : ℝ)
    (i : Fin N) (c : Fin C) :
    dirichletTransfVar Y a i c = Real.log ((Y i c + a)⁻¹ + 1) ∧
    dirichletTransfMean Y a i c =
      Real.log (Y i c + a) - Real.log ((Y i c + a)⁻¹ + 1) / 2 ∧
    (∀ {d M : ℕ} (obs_x : Fin N → Fin d → ℝ) (x_new : Fin M → Fin d → ℝ)
      (l v pm : ℝ),
      dirichletClassCall obs_x Y a x_new l v c pm =
        gp_inference obs_x (fun i => dirichletTransfMean Y a i c) x_new
          ⟨l, v, NoiseSpec.vector fun i => dirichletTransfVar Y a i c⟩ pm) :=
  ⟨rfl, rfl, fun _ _ _ _ _ => rfl⟩

/-- C5 counterexample: the claim that the training covariance diagonal equals
the variance exactly fails on the code.  With a single point at the origin,
lengthscale `1` and variance `1`, the clamp in `cdist` makes the self-distance
`sqrt 1e-30`, not `0`, so the diagonal entry is `exp (-1e-30 / 2) < 1`. -/
theorem rbf_diag_exact_variance_counterexample :
    rbf_kernel xOne xOne 1 1 0 0 ≠ 1 := by
  rw [rbf_kernel_diag_self, one_mul]
  intro h
  have h2 := congrArg Real.log h
  rw [Real.log_exp, Real.log_one] at h2
  norm_num at h2

/-- C5 amended: for every point set and positive lengthscale and variance, the
diagonal of the training covariance equals
`variance * exp (-1e-30 / (2 * lengthscale^2))` exactly — the clamp floor of
the pairwise-distance routine, not a zero distance, determines it; it agrees
with the claimed value `variance` only up to that factor. -/
theorem rbf_diag_variance_mul_clamp_amended {n d : ℕ} (x : Fin n → Fin d → ℝ)
    (l v : ℝ) (_hl : 0 < l) (_hv : 0 < v) (i : Fin n) :
    rbf_kernel x x l v i i = v * Real.exp (-(1e-30) / (2 * l ^ 2)) :=
  rbf_kernel_diag_self x l v i

theorem rbf_diag_variance_mul_clamp_amended_witness :
    ((0 : ℝ) < 1 ∧ (0 : ℝ) < 1) ∧
    rbf_kernel xOne xOne 1 1 0 0 = 1 * Real.exp (-(1e-30) / (2 * 1 ^ 2)) :=
  ⟨⟨by norm_num, by norm_num⟩,
    rbf_diag_variance_mul_clamp_amended xOne 1 1 (by norm_num) (by norm_num) 0⟩

/-- C6: whenever the noisy training covariance `K_y` is not symmetric
positive-definite, `gp_inference` fails at the Cholesky factorization step
with a `NumericalInstabilityError` naming the matrix and the condition, and
returns no result at all (in particular no NaN or Inf laden result). -/
theorem cholesky_failure_raises_numerical_instability {d N M : ℕ}
    (obs_x : Fin N → Fin d → ℝ) (obs_t : Fin N → ℝ) (x_new : Fin M → Fin d → ℝ)
    (p : GPParams N) (prior_mean : ℝ) (hN : ¬ (trainKy obs_x p).PosDef) :
    gp_inference obs_x obs_t x_new p prior_mean =
      Except.error (GPError.NumericalInstabilityError MatrixName.K_y
        FailCondition.notPositiveDefinite) := by
  unfold gp_inference choleskyChecked
  rw [if_neg hN]
  rfl

theorem cholesky_failure_raises_numerical_instability_witness :
    ¬ (trainKy xOne (⟨1, 1, NoiseSpec.scalar (-2)⟩ : GPParams 1)).PosDef ∧
    gp_inference xOne tOne xOne (⟨1, 1, NoiseSpec.scalar (-2)⟩ : GPParams 1) 0 =
      Except.error (GPError.NumericalInstabilityError MatrixName.K_y
        FailCondition.notPositiveDefinite) := by
  have hnot : ¬ (trainKy xOne (⟨1, 1, NoiseSpec.scalar (-2)⟩ : GPParams 1)).PosDef := by
    intro hP
    have hpos := posDef_fin_one_pos hP
    rw [trainKy_diag_scalar, one_mul] at hpos
    have hle : Real.exp (-(1e-30) / (2 * (1 : ℝ) ^ 2)) ≤ 1 :=
      Real.exp_le_one_iff.mpr (by norm_num)
    linarith
  exact ⟨hnot, cholesky_failure_raises_numerical_instability xOne tOne xOne _ 0 hnot⟩

/-- C7 counterexample: the claim that a call with a nonpositive hyperparameter
fails immediately with an `InvalidHyperparameterError` is false on the code —
there is no validation anywhere.  With noise `0 ≤ 0` passed directly, the call
completes and returns a result instead of failing. -/
theorem no_eager_validation_counterexample :
    ((0 : ℝ) ≤ 0) ∧
    ∃ r, gp_inference xOne tOne xOne (⟨1, 1, NoiseSpec.scalar 0⟩ : GPParams 1) 0 =
      Except.ok r := by
  refine ⟨le_refl 0, ⟨_, gp_inference_eq_ok xOne tOne xOne _ 0 ?_⟩⟩
  apply posDef_fin_one
  rw [trainKy_diag_scalar, one_mul, add_zero]
  exact Real.exp_pos _

/-- C7 amended: the code performs no hyperparameter validation at all.  A call
whose lengthscale, variance or noise is nonpositive is not rejected eagerly
and no `InvalidHyperparameterError` exists; the computation proceeds to the
covariance and Cholesky steps, and whenever the resulting `K_y` is still
positive-definite the call returns an ordinary result. -/
theorem no_eager_validation_amended {d N M : ℕ} (obs_x : Fin N → Fin d → ℝ)
    (obs_t : Fin N → ℝ) (x_new : Fin M → Fin d → ℝ) (p : GPParams N)
    (prior_mean : ℝ) (_hbad : hasNonpositiveHyper p)
    (hPD : (trainKy obs_x p).PosDef) :
    ∃ r, gp_inference obs_x obs_t x_new p prior_mean = Except.ok r :=
  ⟨_, gp_inference_eq_ok obs_x obs_t x_new p prior_mean hPD⟩

theorem no_eager_validation_amended_witness :
    hasNonpositiveHyper (⟨1, 0, NoiseSpec.scalar 1⟩ : GPParams 1) ∧
    ∃ r, gp_inference xOne tOne xOne (⟨1, 0, NoiseSpec.scalar 1⟩ : GPParams 1) 0 =
      Except.ok r := by
  have hPD : (trainKy xOne (⟨1, 0, NoiseSpec.scalar 1⟩ : GPParams 1)).PosDef := by
    apply posDef_fin_one
    rw [trainKy_diag_scalar, zero_mul, zero_add]
    norm_num
  exact ⟨Or.inr (Or.inl le_rfl),
    no_eager_validation_amended xOne tOne xOne _ 0 (Or.inr (Or.inl le_rfl)) hPD⟩

/-- C1: when `K_y` is symmetric positive-definite, the log marginal likelihood
returned by `gp_inference` equals
`-1/2 * Σ log |diag L| - 1/2 * ‖z‖² - (N/2) * log (2π)` with `L` the lower
Cholesky factor of `K_y` and `z` the forward-substitution solution of
`L z = t` for the prior-mean-offset targets `t`; the same `z` is the inner
solve from which the returned posterior mean's `alpha` is completed by the
backward solve. -/
theorem gp_logLik_cholesky_formula {d N M : ℕ} (obs_x : Fin N → Fin d → ℝ)
    (obs_t : Fin N → ℝ) (x_new : Fin M → Fin d → ℝ) (p : GPParams N) (m0 : ℝ)
    (hPD : (trainKy obs_x p).PosDef) :
    Except.map (fun r => r.2.2) (gp_inference obs_x obs_t x_new p m0) =
      Except.ok
        (-(1 / 2) * (∑ i, Real.log |cholesky (trainKy obs_x p) i i|) -
          (1 / 2) *
            (∑ i, trtrsLower (cholesky (trainKy obs_x p)) (fun i => obs_t i - m0) i ^ 2) -
          (N : ℝ) / 2 * Real.log (2 * Real.pi)) ∧
    Except.map (fun r => r.1) (gp_inference obs_x obs_t x_new p m0) =
      Except.ok (fun j =>
        (∑ i, rbf_kernel obs_x x_new p.lengthscale p.variance i j *
          trtrsUpper (cholesky (trainKy obs_x p)).transpose
            (trtrsLower (cholesky (trainKy obs_x p)) (fun i => obs_t i - m0)) i) + m0) := by
  rw [gp_inference_eq_ok obs_x obs_t x_new p m0 hPD]
  constructor
  · refine congrArg Except.ok ?_
    show (gpResult obs_x obs_t x_new p m0 (cholesky (trainKy obs_x p))).2.2 = _
    rw [gpResult_logLik]
    ring
  · exact congrArg Except.ok (gpResult_mean obs_x obs_t x_new p m0 _)

theorem gp_logLik_cholesky_formula_witness :
    (trainKy xOne (⟨1, 1, NoiseSpec.scalar 1⟩ : GPParams 1)).PosDef ∧
    Except.map (fun r => r.2.2)
        (gp_inference xOne tOne xOne (⟨1, 1, NoiseSpec.scalar 1⟩ : GPParams 1) 0) =
      Except.ok
        (-(1 / 2) *
            (∑ i, Real.log
              |cholesky (trainKy xOne (⟨1, 1, NoiseSpec.scalar 1⟩ : GPParams 1)) i i|) -
          (1 / 2) *
            (∑ i, trtrsLower (cholesky (trainKy xOne (⟨1, 1, NoiseSpec.scalar 1⟩ : GPParams 1)))
              (fun i => tOne i - 0) i ^ 2) -
          ((1 : ℕ) : ℝ) / 2 * Real.log (2 * Real.pi)) := by
  have hPD : (trainKy xOne (⟨1, 1, NoiseSpec.scalar 1⟩ : GPParams 1)).PosDef := by
    apply posDef_fin_one
    rw [trainKy_diag_scalar, one_mul]
    positivity
  exact ⟨hPD, (gp_logLik_cholesky_formula xOne tOne xOne _ 0 hPD).1⟩

/-- C4: `gp_inference` subtracts the scalar prior mean `m0` from the targets,
computes `alpha` from the offset targets via the two triangular solves against
the Cholesky factor, and returns the posterior mean as `K*ᵀ · alpha + m0`,
re-adding the prior mean that was subtracted at input. -/
theorem posterior_mean_prior_offset {d N M : ℕ} (obs_x : Fin N → Fin d → ℝ)
    (obs_t : Fin N → ℝ) (x_new : Fin M → Fin d → ℝ) (p : GPParams N) (m0 : ℝ)
    (hPD : (trainKy obs_x p).PosDef) :
    ∃ pv ll, gp_inference obs_x obs_t x_new p m0 =
      Except.ok (fun j =>
        (∑ i, rbf_kernel obs_x x_new p.lengthscale p.variance i j *
          trtrsUpper (cholesky (trainKy obs_x p)).transpose
            (trtrsLower (cholesky (trainKy obs_x p)) (fun i => obs_t i - m0)) i) + m0,
        pv, ll) := by
  refine ⟨(gpResult obs_x obs_t x_new p m0 (cholesky (trainKy obs_x p))).2.1,
    (gpResult obs_x obs_t x_new p m0 (cholesky (trainKy obs_x p))).2.2, ?_⟩
  rw [gp_inference_eq_ok obs_x obs_t x_new p m0 hPD]
  rfl

theorem posterior_mean_prior_offset_witness :
    (trainKy xOne (⟨1, 1, NoiseSpec.scalar 1⟩ : GPParams 1)).PosDef ∧
    ∃ pv ll, gp_inference xOne tOne xOne (⟨1, 1, NoiseSpec.scalar 1⟩ : GPParams 1) 2 =
      Except.ok (fun j =>
        (∑ i, rbf_kernel xOne xOne (1 : ℝ) 1 i j *
          trtrsUpper (cholesky (trainKy xOne (⟨1, 1, NoiseSpec.scalar 1⟩ : GPParams 1))).transpose
            (trtrsLower (cholesky (trainKy xOne (⟨1, 1, NoiseSpec.scalar 1⟩ : GPParams 1)))
              (fun i => tOne i - 2)) i) + 2,
        pv, ll) := by
  have hPD : (trainKy xOne (⟨1, 1, NoiseSpec.scalar 1⟩ : GPParams 1)).PosDef := by
    apply posDef_fin_one
    rw [trainKy_diag_scalar, one_mul]
    positivity
  exact ⟨hPD, posterior_mean_prior_offset xOne tOne xOne _ 2 hPD⟩

/-- C9: the training loop over any objective and optimizer update executes
exactly `S` gradient steps with no early stop (the final state is the `S`-fold
update of the initial one), and afterwards the trace holds exactly `S`
entries, the `i`-th being the objective evaluated at the state of step `i`;
each iteration only appends one entry and never removes or modifies earlier
ones. -/
theorem optimizer_trace_spec {σ : Type} (nll : σ → ℝ) (upd : σ → σ) (init : σ)
    (S : ℕ) :
    (optimRun nll upd init S).1 = upd^[S] init ∧
    (optimRun nll upd init S).2.length = S ∧
    (∀ i, i < S → (optimRun nll upd init S).2[i]? = some (nll (upd^[i] init))) ∧
    (∀ n, (optimRun nll upd init (n + 1)).2 =
      (optimRun nll upd init n).2 ++ [nll (upd^[n] init)]) :=
  ⟨optimRun_fst nll upd init S, optimRun_trace_length nll upd init S,
    fun i h => optimRun_trace_get nll upd init S i h,
    fun n => optimRun_trace_succ nll upd init n⟩

theorem optimizer_trace_spec_witness :
    1 < 2 ∧
    (optimRun (trainNll xOne tOne xOne) id ((0 : ℝ), (0 : ℝ), (0 : ℝ)) 2).2[1]? =
      some (trainNll xOne tOne xOne (id^[1] ((0 : ℝ), (0 : ℝ), (0 : ℝ)))) :=
  ⟨by norm_num,
    (optimizer_trace_spec (trainNll xOne tOne xOne) id ((0 : ℝ), (0 : ℝ), (0 : ℝ)) 2).2.2.1 1
      (by norm_num)⟩
